import Mathlib

/-!
Verification of the stivale v2 tag-decoding layer (`src/v2/tag.rs`).

The records are `repr(C, packed)` little-endian byte layouts.  We embed them
shallowly: memory is a byte-addressed function `Nat → Nat` (each read is taken
mod 256), every field read is a little-endian decode at the field's packed
offset, and the Rust methods (`size`, `end_address`, `as_slice`, `iter`,
`next`, `clone`) become Lean functions on the decoded views.  `u64`/`usize`
arithmetic wraps mod 2^64 (the crate targets 64-bit kernels), written with an
explicit `% 2^64` where the source performs machine arithmetic.  Iterators are
modelled by explicit state passing: `next` returns the optional element
together with the successor iterator state.
-/

namespace Stivale2

/-- Byte-addressed memory owned by the bootloader: an arbitrary total function
from addresses to bytes (reads mask to `% 256`). -/
def Mem : Type := Nat → Nat

/-- Read one byte. -/
def readByte (m : Mem) (a : Nat) : Nat := m a % 256

/-- Little-endian read of `n` consecutive bytes starting at `a`. -/
def readLE (m : Mem) (a : Nat) : Nat → Nat
  | 0 => 0
  | n + 1 => readByte m a + 256 * readLE m (a + 1) n

theorem readByte_lt (m : Mem) (a : Nat) : readByte m a < 256 :=
  Nat.mod_lt _ (by norm_num)

theorem readLE_lt (m : Mem) (a n : Nat) : readLE m a n < 256 ^ n := by
  induction n generalizing a with
  | zero => simp [readLE]
  | succ k ih =>
    have hb := readByte_lt m a
    have hr := ih (a + 1)
    calc readByte m a + 256 * readLE m (a + 1) k
        ≤ 255 + 256 * readLE m (a + 1) k := by omega
      _ < 256 ^ (k + 1) := by
          have : 256 * readLE m (a + 1) k ≤ 256 * (256 ^ k - 1) := by
            have : readLE m (a + 1) k ≤ 256 ^ k - 1 := by omega
            exact Nat.mul_le_mul_left 256 this
          have hpos : 1 ≤ 256 ^ k := Nat.one_le_pow _ _ (by norm_num)
          have : 256 * readLE m (a + 1) k ≤ 256 ^ (k + 1) - 256 := by
            rw [pow_succ, mul_comm (256 ^ k) 256]
            omega
          omega

/-- If two memories agree byte-for-byte on the `n` bytes being read, the two
little-endian reads agree (the read depends only on the field's bytes, not on
where the record sits). -/
theorem readLE_congr (m1 m2 : Mem) (a1 a2 n : Nat)
    (h : ∀ i, i < n → m1 (a1 + i) = m2 (a2 + i)) :
    readLE m1 a1 n = readLE m2 a2 n := by
  induction n generalizing a1 a2 with
  | zero => rfl
  | succ k ih =>
    have h0 : m1 a1 = m2 a2 := by
      have := h 0 (Nat.succ_pos k); simpa using this
    have hrest : readLE m1 (a1 + 1) k = readLE m2 (a2 + 1) k := by
      refine ih (a1 + 1) (a2 + 1) (fun i hi => ?_)
      have := h (i + 1) (by omega)
      have e1 : a1 + 1 + i = a1 + (i + 1) := by omega
      have e2 : a2 + 1 + i = a2 + (i + 1) := by omega
      rw [e1, e2]; exact this
    simp [readLE, readByte, h0, hrest]

/-- The common tag header: `{identifier: u64, next: u64}` at offsets 0 and 8. -/
structure StivaleTagHeader where
  identifier : Nat
  next : Nat
deriving DecidableEq

/-- Decode the packed `StivaleTagHeader` at address `a`. -/
def readStivaleTagHeader (m : Mem) (a : Nat) : StivaleTagHeader :=
  { identifier := readLE m a 8
    next := readLE m (a + 8) 8 }

/-- Decoded `StivaleFramebufferTag` (packed offsets: header 0, addr 16,
width 24, height 26, pitch 28, bpp 30, then seven u8 fields from 32). -/
structure StivaleFramebufferTag where
  header : StivaleTagHeader
  framebuffer_addr : Nat
  framebuffer_width : Nat
  framebuffer_height : Nat
  framebuffer_pitch : Nat
  framebuffer_bpp : Nat
  memory_model : Nat
  red_mask_size : Nat
  red_mask_shift : Nat
  green_mask_size : Nat
  green_mask_shift : Nat
  blue_mask_size : Nat
  blue_mask_shift : Nat
deriving DecidableEq

/-- Decode the packed `StivaleFramebufferTag` at address `a`. -/
def readStivaleFramebufferTag (m : Mem) (a : Nat) : StivaleFramebufferTag :=
  { header := readStivaleTagHeader m a
    framebuffer_addr := readLE m (a + 16) 8
    framebuffer_width := readLE m (a + 24) 2
    framebuffer_height := readLE m (a + 26) 2
    framebuffer_pitch := readLE m (a + 28) 2
    framebuffer_bpp := readLE m (a + 30) 2
    memory_model := readByte m (a + 32)
    red_mask_size := readByte m (a + 33)
    red_mask_shift := readByte m (a + 34)
    green_mask_size := readByte m (a + 35)
    green_mask_shift := readByte m (a + 36)
    blue_mask_size := readByte m (a + 37)
    blue_mask_shift := readByte m (a + 38) }

/-- `StivaleFramebufferTag::size`: `pitch as usize * height as usize *
(bpp as usize / 8)`, with `usize` arithmetic wrapping mod 2^64. -/
def StivaleFramebufferTag.size (t : StivaleFramebufferTag) : Nat :=
  (t.framebuffer_pitch * t.framebuffer_height % 2 ^ 64)
    * (t.framebuffer_bpp / 8) % 2 ^ 64

/-- Decoded `StivaleMemoryMapEntry` (packed, 24 bytes: base 0, length 8,
entry_type 16 as the raw `u32` discriminant, private padding 20).  The `kind`
enumeration `StivaleMemoryMapEntryType` is `repr(u32)`; the raw discriminant
is kept, matching the bytes in the backing buffer. -/
structure StivaleMemoryMapEntry where
  base : Nat
  length : Nat
  entry_type : Nat
  padding : Nat
deriving DecidableEq, Inhabited

/-- Decode the packed `StivaleMemoryMapEntry` at address `a`. -/
def readStivaleMemoryMapEntry (m : Mem) (a : Nat) : StivaleMemoryMapEntry :=
  { base := readLE m a 8
    length := readLE m (a + 8) 8
    entry_type := readLE m (a + 16) 4
    padding := readLE m (a + 20) 4 }

/-- `StivaleMemoryMapEntry::end_address`: `self.base + self.length` with `u64`
machine addition (wraps mod 2^64). -/
def StivaleMemoryMapEntry.end_address (e : StivaleMemoryMapEntry) : Nat :=
  (e.base + e.length) % 2 ^ 64

/-- View of a `StivaleMemoryMapTag` living in bootloader memory (the Rust
`&StivaleMemoryMapTag` is a pointer into the buffer; we carry the memory and
the tag's base address).  Packed layout: header 0, entries_len 16, trailing
entry array from 24 with 24-byte stride. -/
structure StivaleMemoryMapTag where
  mem : Mem
  addr : Nat

/-- The tag's `entries_len` field (u64 at offset 16). -/
def StivaleMemoryMapTag.entries_len (t : StivaleMemoryMapTag) : Nat :=
  readLE t.mem (t.addr + 16) 8

/-- `StivaleMemoryMapTag::as_slice`: the trailing array of `entries_len`
contiguous entries starting right after the fixed header. -/
def StivaleMemoryMapTag.as_slice (t : StivaleMemoryMapTag) :
    List StivaleMemoryMapEntry :=
  (List.range t.entries_len).map
    (fun i => readStivaleMemoryMapEntry t.mem (t.addr + 24 + 24 * i))

/-- `StivaleMemoryMapIter`: a reference to the tag plus the cursor `current`. -/
structure StivaleMemoryMapIter where
  sref : StivaleMemoryMapTag
  current : Nat

/-- `StivaleMemoryMapTag::iter`: fresh iterator with cursor 0. -/
def StivaleMemoryMapTag.iter (t : StivaleMemoryMapTag) : StivaleMemoryMapIter :=
  { sref := t, current := 0 }

/-- `derive(Clone)` on the iterator: field-wise copy. -/
def StivaleMemoryMapIter.clone (it : StivaleMemoryMapIter) :
    StivaleMemoryMapIter :=
  { sref := it.sref, current := it.current }

/-- `StivaleMemoryMapIter::next` with explicit state passing: if
`current < entries_len`, yield `as_slice[current]` and increment the cursor;
otherwise yield none and leave the iterator unchanged.  (The source indexes
`as_slice()`, which the guard keeps in bounds; `getD` supplies a default that
is never reached.) -/
def StivaleMemoryMapIter.next (it : StivaleMemoryMapIter) :
    Option StivaleMemoryMapEntry × StivaleMemoryMapIter :=
  if it.current < it.sref.entries_len then
    (some (it.sref.as_slice.getD it.current default),
      { sref := it.sref, current := it.current + 1 })
  else
    (none, it)

/-- Run the iterator to exhaustion (fuel-bounded; `collect` supplies exactly
enough fuel), gathering the yielded elements in order. -/
def StivaleMemoryMapIter.emit : Nat → StivaleMemoryMapIter →
    List StivaleMemoryMapEntry
  | 0, _ => []
  | fuel + 1, it =>
    match it.next with
    | (some e, it2) => e :: StivaleMemoryMapIter.emit fuel it2
    | (none, _) => []

/-- The sequence of elements the iterator still produces from its current
cursor position. -/
def StivaleMemoryMapIter.collect (it : StivaleMemoryMapIter) :
    List StivaleMemoryMapEntry :=
  StivaleMemoryMapIter.emit (it.sref.entries_len - it.current) it

/-- Decoded `StivaleModule` (packed, 144 bytes: start 0, end 8, then the fixed
128-byte name buffer).  `end` is a Lean keyword, hence the field name `end_`. -/
structure StivaleModule where
  start : Nat
  end_ : Nat
  string : List Nat
deriving DecidableEq, Inhabited

/-- Decode the packed `StivaleModule` at address `a`. -/
def readStivaleModule (m : Mem) (a : Nat) : StivaleModule :=
  { start := readLE m a 8
    end_ := readLE m (a + 8) 8
    string := (List.range 128).map (fun i => readByte m (a + 16 + i)) }

/-- `StivaleModule::size`: `self.end - self.start` with `u64` machine
subtraction (wraps mod 2^64; both operands are below 2^64). -/
def StivaleModule.size (md : StivaleModule) : Nat :=
  (md.end_ + 2 ^ 64 - md.start) % 2 ^ 64

/-- View of a `StivaleModuleTag` (packed layout: header 0, module_len 16,
trailing module array from 24 with 144-byte stride). -/
structure StivaleModuleTag where
  mem : Mem
  addr : Nat

/-- The tag's `module_len` field (u64 at offset 16). -/
def StivaleModuleTag.module_len (t : StivaleModuleTag) : Nat :=
  readLE t.mem (t.addr + 16) 8

/-- `StivaleModuleTag::as_slice`: the trailing array of `module_len` modules. -/
def StivaleModuleTag.as_slice (t : StivaleModuleTag) : List StivaleModule :=
  (List.range t.module_len).map
    (fun i => readStivaleModule t.mem (t.addr + 24 + 144 * i))

/-- `StivaleModuleIter`: a reference to the tag plus the cursor `current`. -/
structure StivaleModuleIter where
  sref : StivaleModuleTag
  current : Nat

/-- `StivaleModuleTag::iter`: fresh iterator with cursor 0. -/
def StivaleModuleTag.iter (t : StivaleModuleTag) : StivaleModuleIter :=
  { sref := t, current := 0 }

/-- `derive(Clone)` on the module iterator: field-wise copy. -/
def StivaleModuleIter.clone (it : StivaleModuleIter) : StivaleModuleIter :=
  { sref := it.sref, current := it.current }

/-- `StivaleModuleIter::next`, same shape as the memory-map iterator. -/
def StivaleModuleIter.next (it : StivaleModuleIter) :
    Option StivaleModule × StivaleModuleIter :=
  if it.current < it.sref.module_len then
    (some (it.sref.as_slice.getD it.current default),
      { sref := it.sref, current := it.current + 1 })
  else
    (none, it)

/-- Fuel-bounded exhaustion of the module iterator. -/
def StivaleModuleIter.emit : Nat → StivaleModuleIter → List StivaleModule
  | 0, _ => []
  | fuel + 1, it =>
    match it.next with
    | (some e, it2) => e :: StivaleModuleIter.emit fuel it2
    | (none, _) => []

/-- The sequence of modules the iterator still produces. -/
def StivaleModuleIter.collect (it : StivaleModuleIter) : List StivaleModule :=
  StivaleModuleIter.emit (it.sref.module_len - it.current) it

/-- Decoded `StivaleSmpInfo` (packed, 32 bytes: uid 0, lapic_id 4,
target_stack 8, goto_address 16, extra 24). -/
structure StivaleSmpInfo where
  acpi_processor_uid : Nat
  lapic_id : Nat
  target_stack : Nat
  goto_address : Nat
  extra : Nat
deriving DecidableEq, Inhabited

/-- Decode the packed `StivaleSmpInfo` at address `a`. -/
def readStivaleSmpInfo (m : Mem) (a : Nat) : StivaleSmpInfo :=
  { acpi_processor_uid := readLE m a 4
    lapic_id := readLE m (a + 4) 4
    target_stack := readLE m (a + 8) 8
    goto_address := readLE m (a + 16) 8
    extra := readLE m (a + 24) 8 }

/-- View of a `StivaleSmpTag`.  Packed layout: header 0, flags 16 (the
`StivaleSmpHeaderTagFlags` bitflags from the sibling header module, a `u64`),
bsp_lapic_id 24, unused 28, cpu_count 32, trailing SMP info array from 40
with 32-byte stride (the packed element size u32+u32+u64+u64+u64). -/
structure StivaleSmpTag where
  mem : Mem
  addr : Nat

/-- The tag's `cpu_count` field (u64 at offset 32). -/
def StivaleSmpTag.cpu_count (t : StivaleSmpTag) : Nat :=
  readLE t.mem (t.addr + 32) 8

/-- `StivaleSmpTag::as_slice`: the trailing array of `cpu_count` SMP infos. -/
def StivaleSmpTag.as_slice (t : StivaleSmpTag) : List StivaleSmpInfo :=
  (List.range t.cpu_count).map
    (fun i => readStivaleSmpInfo t.mem (t.addr + 40 + 32 * i))

namespace StivaleFirmwareTagFlags

/-- `StivaleFirmwareTagFlags::UEFI = 0x00` (bitflags constant). -/
def UEFI : Nat := 0x00

/-- `StivaleFirmwareTagFlags::BIOS = 0x01` (bitflags constant). -/
def BIOS : Nat := 0x01

/-- The bitflags crate's `contains`: `(self.bits & other.bits) == other.bits`. -/
def contains (self other : Nat) : Bool := self &&& other == other

end StivaleFirmwareTagFlags

/-- Modelled from the spec: the Chain Walker ("find tag by kind", spec §4.1
and §6) is not part of `src/v2/tag.rs` — only the tag shapes it resolves are.
Per the spec it follows `next` links from the root address, treats the value 0
as the terminating sentinel, and returns the address of the first tag whose
`identifier` field equals the target (the base of the typed view), or an
absent result when no tag matches.  The spec guarantees the chain is finite
and acyclic (a caller obligation), which the embedding expresses with a fuel
bound covering the chain's length. -/
def findTag (m : Mem) (target : Nat) : Nat → Nat → Option Nat
  | 0, _ => none
  | fuel + 1, addr =>
    if addr = 0 then none
    else if (readStivaleTagHeader m addr).identifier = target then some addr
    else findTag m target fuel (readStivaleTagHeader m addr).next

/-- A list of tag addresses describes the chain rooted at `root`: each listed
address is the current root, is nonzero (not the sentinel), and its `next`
field roots the rest; the list ends when the root is the sentinel 0. -/
def isChain (m : Mem) : Nat → List Nat → Bool
  | root, [] => root == 0
  | root, a :: rest =>
    root == a && !(a == 0) && isChain m (readStivaleTagHeader m a).next rest

theorem memoryMap_length_as_slice (t : StivaleMemoryMapTag) :
    t.as_slice.length = t.entries_len := by
  simp [StivaleMemoryMapTag.as_slice]

theorem module_length_as_slice (t : StivaleModuleTag) :
    t.as_slice.length = t.module_len := by
  simp [StivaleModuleTag.as_slice]

theorem smp_length_as_slice (t : StivaleSmpTag) :
    t.as_slice.length = t.cpu_count := by
  simp [StivaleSmpTag.as_slice]

theorem memoryMap_emit_eq_drop (t : StivaleMemoryMapTag) :
    ∀ fuel c : Nat, fuel = t.entries_len - c →
      StivaleMemoryMapIter.emit fuel ⟨t, c⟩ = t.as_slice.drop c := by
  intro fuel
  induction fuel with
  | zero =>
    intro c hc
    have hle : t.as_slice.length ≤ c := by
      rw [memoryMap_length_as_slice]; omega
    rw [StivaleMemoryMapIter.emit, List.drop_eq_nil_of_le hle]
  | succ k ih =>
    intro c hc
    have hlt : c < t.entries_len := by omega
    have hlen : c < t.as_slice.length := by
      rw [memoryMap_length_as_slice]; exact hlt
    have hnext : (⟨t, c⟩ : StivaleMemoryMapIter).next =
        (some (t.as_slice.getD c default), ⟨t, c + 1⟩) := by
      simp [StivaleMemoryMapIter.next, hlt]
    rw [StivaleMemoryMapIter.emit, hnext]
    show t.as_slice.getD c default ::
        StivaleMemoryMapIter.emit k ⟨t, c + 1⟩ = t.as_slice.drop c
    rw [ih (c + 1) (by omega), List.drop_eq_getElem_cons hlen,
      List.getD_eq_getElem _ _ hlen]

theorem memoryMap_collect_iter (t : StivaleMemoryMapTag) :
    t.iter.collect = t.as_slice := by
  have h := memoryMap_emit_eq_drop t t.entries_len 0 (by omega)
  simpa [StivaleMemoryMapIter.collect, StivaleMemoryMapTag.iter] using h

theorem module_emit_eq_drop (t : StivaleModuleTag) :
    ∀ fuel c : Nat, fuel = t.module_len - c →
      StivaleModuleIter.emit fuel ⟨t, c⟩ = t.as_slice.drop c := by
  intro fuel
  induction fuel with
  | zero =>
    intro c hc
    have hle : t.as_slice.length ≤ c := by
      rw [module_length_as_slice]; omega
    rw [StivaleModuleIter.emit, List.drop_eq_nil_of_le hle]
  | succ k ih =>
    intro c hc
    have hlt : c < t.module_len := by omega
    have hlen : c < t.as_slice.length := by
      rw [module_length_as_slice]; exact hlt
    have hnext : (⟨t, c⟩ : StivaleModuleIter).next =
        (some (t.as_slice.getD c default), ⟨t, c + 1⟩) := by
      simp [StivaleModuleIter.next, hlt]
    rw [StivaleModuleIter.emit, hnext]
    show t.as_slice.getD c default ::
        StivaleModuleIter.emit k ⟨t, c + 1⟩ = t.as_slice.drop c
    rw [ih (c + 1) (by omega), List.drop_eq_getElem_cons hlen,
      List.getD_eq_getElem _ _ hlen]

theorem module_collect_iter (t : StivaleModuleTag) :
    t.iter.collect = t.as_slice := by
  have h := module_emit_eq_drop t t.module_len 0 (by omega)
  simpa [StivaleModuleIter.collect, StivaleModuleTag.iter] using h

/-- Claim C2: for every framebuffer tag decoded from memory, `size` returns
pitch × height × (bpp / 8) as exact natural-number arithmetic (the u16 field
bounds keep every intermediate usize product below 2^64, so the machine
arithmetic never wraps); in particular a tag with pitch 1024, height 768,
bpp 32 has size 1024 × 768 × 4 = 3145728. -/
theorem claim_C2_framebuffer_size (m : Mem) (a : Nat) :
    ((readStivaleFramebufferTag m a).size =
      (readStivaleFramebufferTag m a).framebuffer_pitch *
        (readStivaleFramebufferTag m a).framebuffer_height *
        ((readStivaleFramebufferTag m a).framebuffer_bpp / 8)) ∧
    StivaleFramebufferTag.size
      { header := ⟨0, 0⟩, framebuffer_addr := 0, framebuffer_width := 1024,
        framebuffer_height := 768, framebuffer_pitch := 1024,
        framebuffer_bpp := 32, memory_model := 1, red_mask_size := 8,
        red_mask_shift := 0, green_mask_size := 8, green_mask_shift := 8,
        blue_mask_size := 8, blue_mask_shift := 16 } = 3145728 := by
  constructor
  · have hp := readLE_lt m (a + 28) 2
    have hh := readLE_lt m (a + 26) 2
    have hb := readLE_lt m (a + 30) 2
    show readLE m (a + 28) 2 * readLE m (a + 26) 2 % 2 ^ 64
        * (readLE m (a + 30) 2 / 8) % 2 ^ 64
      = readLE m (a + 28) 2 * readLE m (a + 26) 2 * (readLE m (a + 30) 2 / 8)
    norm_num at hp hh hb
    have h64 : (2 : Nat) ^ 64 = 18446744073709551616 := by norm_num
    have hmul : readLE m (a + 28) 2 * readLE m (a + 26) 2 ≤ 65535 * 65535 :=
      Nat.mul_le_mul (by omega) (by omega)
    have h1 : readLE m (a + 28) 2 * readLE m (a + 26) 2 < 2 ^ 64 := by omega
    rw [Nat.mod_eq_of_lt h1]
    have hmul2 : readLE m (a + 28) 2 * readLE m (a + 26) 2
        * (readLE m (a + 30) 2 / 8) ≤ 4294836225 * 8191 :=
      Nat.mul_le_mul (by omega) (by omega)
    have h2 : readLE m (a + 28) 2 * readLE m (a + 26) 2
        * (readLE m (a + 30) 2 / 8) < 2 ^ 64 := by omega
    exact Nat.mod_eq_of_lt h2
  · decide

/-- Memory holding a memory-map tag at address 0 whose single entry has
base = 2^64 − 1 and length = 1: entries_len byte at offset 16, the entry's
base bytes at 24–31 all 0xFF, its length's low byte at 32. -/
def overflowMapMem : Mem := fun x =>
  if x = 16 then 1 else if 24 ≤ x ∧ x < 32 then 255 else if x = 32 then 1 else 0

/-- The memory-map tag view over `overflowMapMem`. -/
def overflowMapTag : StivaleMemoryMapTag := ⟨overflowMapMem, 0⟩

/-- Claim C3 counterexample: the entry with base = 2^64 − 1 and length = 1 is
an entry of a memory map tag, yet `end_address` returns 0, not base + length
= 2^64 — the u64 addition wraps. -/
theorem claim_C3_counterexample :
    readStivaleMemoryMapEntry overflowMapMem 24 ∈ overflowMapTag.as_slice ∧
    (readStivaleMemoryMapEntry overflowMapMem 24).end_address ≠
      (readStivaleMemoryMapEntry overflowMapMem 24).base +
        (readStivaleMemoryMapEntry overflowMapMem 24).length := by
  constructor
  · decide
  · decide

/-- Claim C3 (amended): for every entry of a memory map tag whose base and
length sum below 2^64 (no u64 overflow), `end_address` returns base + length;
in general it returns (base + length) mod 2^64. -/
theorem claim_C3_end_address (t : StivaleMemoryMapTag)
    (e : StivaleMemoryMapEntry) (_he : e ∈ t.as_slice)
    (h : e.base + e.length < 2 ^ 64) :
    e.end_address = e.base + e.length :=
  Nat.mod_eq_of_lt h

/-- Memory holding a memory-map tag at address 0 with one entry of base 5 and
length 7. -/
def smallMapMem : Mem := fun x =>
  if x = 16 then 1 else if x = 24 then 5 else if x = 32 then 7 else 0

/-- Witness for the amended C3 at a concrete entry: base 5, length 7,
end address 12. -/
theorem claim_C3_end_address_witness :
    readStivaleMemoryMapEntry smallMapMem 24 ∈
      (⟨smallMapMem, 0⟩ : StivaleMemoryMapTag).as_slice ∧
    (readStivaleMemoryMapEntry smallMapMem 24).base +
      (readStivaleMemoryMapEntry smallMapMem 24).length < 2 ^ 64 ∧
    (readStivaleMemoryMapEntry smallMapMem 24).end_address =
      (readStivaleMemoryMapEntry smallMapMem 24).base +
        (readStivaleMemoryMapEntry smallMapMem 24).length :=
  ⟨by decide, by decide,
    claim_C3_end_address ⟨smallMapMem, 0⟩ _ (by decide) (by decide)⟩

/-- Claim C4: for every module decoded from memory whose end field is at least
its start field, `size` returns end − start (the u64 subtraction cannot
underflow under the stated precondition). -/
theorem claim_C4_module_size (m : Mem) (a : Nat)
    (h : (readStivaleModule m a).start ≤ (readStivaleModule m a).end_) :
    (readStivaleModule m a).size =
      (readStivaleModule m a).end_ - (readStivaleModule m a).start := by
  have hs := readLE_lt m a 8
  have he := readLE_lt m (a + 8) 8
  norm_num at hs he
  have hle : readLE m a 8 ≤ readLE m (a + 8) 8 := h
  show (readLE m (a + 8) 8 + 2 ^ 64 - readLE m a 8) % 2 ^ 64 =
    readLE m (a + 8) 8 - readLE m a 8
  have h64 : (2 : Nat) ^ 64 = 18446744073709551616 := by norm_num
  have h1 : readLE m (a + 8) 8 + 2 ^ 64 - readLE m a 8 =
      readLE m (a + 8) 8 - readLE m a 8 + 2 ^ 64 := by omega
  rw [h1, Nat.add_mod_right, Nat.mod_eq_of_lt (by omega)]

/-- Memory holding a module record at address 0 with start = 0x100000 and
end = 0x104000 (little-endian bytes at offsets 2, 9 and 10). -/
def initrdModuleMem : Mem := fun x =>
  if x = 2 then 0x10 else if x = 9 then 0x40 else if x = 10 then 0x10 else 0

/-- Witness for C4: the concrete module with start 0x100000 and end 0x104000
satisfies the precondition and its size is 0x4000. -/
theorem claim_C4_module_size_witness :
    (readStivaleModule initrdModuleMem 0).start ≤
      (readStivaleModule initrdModuleMem 0).end_ ∧
    (readStivaleModule initrdModuleMem 0).size = 0x4000 :=
  ⟨by decide, (claim_C4_module_size initrdModuleMem 0 (by decide)).trans
    (by decide)⟩

/-- Claim C8: the copy-out accessors depend only on the bytes of the field
itself, so they return the value stored in the field regardless of the
record's placement (in particular at a misaligned base address): if two
memories hold the same field bytes at records placed at arbitrary (possibly
differently aligned) base addresses, the decoded memory-map entry `entry_type`
(u32 at packed offset 16) and the framebuffer 16-bit geometry fields (packed
offsets 24–31) agree. -/
theorem claim_C8_copy_out_accessors (m1 m2 : Mem) (a1 a2 : Nat) :
    ((∀ i, i < 4 → m1 (a1 + 16 + i) = m2 (a2 + 16 + i)) →
      (readStivaleMemoryMapEntry m1 a1).entry_type =
        (readStivaleMemoryMapEntry m2 a2).entry_type) ∧
    ((∀ i, i < 8 → m1 (a1 + 24 + i) = m2 (a2 + 24 + i)) →
      (readStivaleFramebufferTag m1 a1).framebuffer_width =
          (readStivaleFramebufferTag m2 a2).framebuffer_width ∧
        (readStivaleFramebufferTag m1 a1).framebuffer_height =
          (readStivaleFramebufferTag m2 a2).framebuffer_height ∧
        (readStivaleFramebufferTag m1 a1).framebuffer_pitch =
          (readStivaleFramebufferTag m2 a2).framebuffer_pitch ∧
        (readStivaleFramebufferTag m1 a1).framebuffer_bpp =
          (readStivaleFramebufferTag m2 a2).framebuffer_bpp) := by
  constructor
  · intro h
    show readLE m1 (a1 + 16) 4 = readLE m2 (a2 + 16) 4
    exact readLE_congr m1 m2 (a1 + 16) (a2 + 16) 4 (fun i hi => by
      have e1 : a1 + 16 + i = a1 + 16 + i := rfl
      exact h i hi)
  · intro h
    refine ⟨?_, ?_, ?_, ?_⟩
    · show readLE m1 (a1 + 24) 2 = readLE m2 (a2 + 24) 2
      exact readLE_congr m1 m2 (a1 + 24) (a2 + 24) 2 (fun i hi => h i (by omega))
    · show readLE m1 (a1 + 26) 2 = readLE m2 (a2 + 26) 2
      refine readLE_congr m1 m2 (a1 + 26) (a2 + 26) 2 (fun i hi => ?_)
      have e1 : a1 + 26 + i = a1 + 24 + (2 + i) := by omega
      have e2 : a2 + 26 + i = a2 + 24 + (2 + i) := by omega
      rw [e1, e2]; exact h (2 + i) (by omega)
    · show readLE m1 (a1 + 28) 2 = readLE m2 (a2 + 28) 2
      refine readLE_congr m1 m2 (a1 + 28) (a2 + 28) 2 (fun i hi => ?_)
      have e1 : a1 + 28 + i = a1 + 24 + (4 + i) := by omega
      have e2 : a2 + 28 + i = a2 + 24 + (4 + i) := by omega
      rw [e1, e2]; exact h (4 + i) (by omega)
    · show readLE m1 (a1 + 30) 2 = readLE m2 (a2 + 30) 2
      refine readLE_congr m1 m2 (a1 + 30) (a2 + 30) 2 (fun i hi => ?_)
      have e1 : a1 + 30 + i = a1 + 24 + (6 + i) := by omega
      have e2 : a2 + 30 + i = a2 + 24 + (6 + i) := by omega
      rw [e1, e2]; exact h (6 + i) (by omega)

/-- A record placed at the odd (misaligned) base address 1: its entry_type
field bytes sit at 17–20. -/
def misalignedMem : Mem := fun x => if x = 17 then 2 else 0

/-- The same record placed at the aligned base address 0. -/
def alignedMem : Mem := fun x => if x = 16 then 2 else 0

/-- Witness for C8: a record at the odd address 1 and the same record at the
aligned address 0 decode to the same entry_type and the same pitch. -/
theorem claim_C8_copy_out_accessors_witness :
    (readStivaleMemoryMapEntry misalignedMem 1).entry_type =
      (readStivaleMemoryMapEntry alignedMem 0).entry_type ∧
    (readStivaleFramebufferTag misalignedMem 1).framebuffer_pitch =
      (readStivaleFramebufferTag alignedMem 0).framebuffer_pitch :=
  ⟨(claim_C8_copy_out_accessors misalignedMem alignedMem 1 0).1 (by decide),
   (((claim_C8_copy_out_accessors misalignedMem alignedMem 1 0).2
      (by decide)).2.2.1)⟩

/-- Claim C9: the firmware flag constant UEFI is 0x00, so the bitflags
`contains` test for UEFI holds of every flags value (vacuously true), while
the BIOS test is exactly the test of bit 0 (0x01): only the BIOS bit
distinguishes the two boot modes. -/
theorem claim_C9_uefi_flag_vacuous :
    StivaleFirmwareTagFlags.UEFI = 0 ∧
    (∀ f : Nat,
      StivaleFirmwareTagFlags.contains f StivaleFirmwareTagFlags.UEFI = true) ∧
    (∀ f : Nat,
      StivaleFirmwareTagFlags.contains f StivaleFirmwareTagFlags.BIOS =
        (f &&& 1 == 1)) := by
  refine ⟨rfl, fun f => ?_, fun f => rfl⟩
  simp [StivaleFirmwareTagFlags.contains, StivaleFirmwareTagFlags.UEFI]

/-- Claim C5: restarting iteration over the same trailing-array tag always
yields the same full sequence — a fresh iterator's output is exactly the
tag's slice, for the memory map and for modules — and advancing an iterator
never mutates the tag it references (`next` passes the same tag reference
through unchanged; in this explicit-state embedding no other iterator's
state can be touched, since `next` consumes and returns only its own
iterator value). -/
theorem claim_C5_iter_restart (t : StivaleMemoryMapTag) (tm : StivaleModuleTag) :
    (t.iter.collect = t.as_slice ∧ tm.iter.collect = tm.as_slice) ∧
    (∀ it : StivaleMemoryMapIter, (it.next).2.sref = it.sref) ∧
    (∀ itm : StivaleModuleIter, (itm.next).2.sref = itm.sref) := by
  refine ⟨⟨memoryMap_collect_iter t, module_collect_iter tm⟩,
    fun it => ?_, fun itm => ?_⟩
  · by_cases hc : it.current < it.sref.entries_len <;>
      simp [StivaleMemoryMapIter.next, hc]
  · by_cases hc : itm.current < itm.sref.module_len <;>
      simp [StivaleModuleIter.next, hc]

/-- Claim C6: for both trailing-array iterators, `next` yields an element
exactly while the cursor is below the tag's count field, and from the point
the cursor reaches the count it yields the absent value and leaves the
iterator state unchanged — so every subsequent call again yields absent. -/
theorem claim_C6_iter_exhaustion (it : StivaleMemoryMapIter)
    (itm : StivaleModuleIter) :
    (((it.next).1.isSome = true ↔ it.current < it.sref.entries_len) ∧
      (it.sref.entries_len ≤ it.current → it.next = (none, it))) ∧
    (((itm.next).1.isSome = true ↔ itm.current < itm.sref.module_len) ∧
      (itm.sref.module_len ≤ itm.current → itm.next = (none, itm))) := by
  refine ⟨⟨?_, fun h => ?_⟩, ⟨?_, fun h => ?_⟩⟩
  · by_cases hc : it.current < it.sref.entries_len <;>
      simp [StivaleMemoryMapIter.next, hc]
  · rw [StivaleMemoryMapIter.next, if_neg (by omega)]
  · by_cases hc : itm.current < itm.sref.module_len <;>
      simp [StivaleModuleIter.next, hc]
  · rw [StivaleModuleIter.next, if_neg (by omega)]

/-- Witness for C6: on tags whose count field is 0, the fresh iterator is
already exhausted and `next` returns the absent value with the state
unchanged. -/
theorem claim_C6_iter_exhaustion_witness :
    (StivaleMemoryMapTag.iter ⟨fun _ => 0, 0⟩).next =
      (none, StivaleMemoryMapTag.iter ⟨fun _ => 0, 0⟩) ∧
    (StivaleModuleTag.iter ⟨fun _ => 0, 0⟩).next =
      (none, StivaleModuleTag.iter ⟨fun _ => 0, 0⟩) :=
  ⟨(claim_C6_iter_exhaustion (StivaleMemoryMapTag.iter ⟨fun _ => 0, 0⟩)
      (StivaleModuleTag.iter ⟨fun _ => 0, 0⟩)).1.2 (by decide),
   (claim_C6_iter_exhaustion (StivaleMemoryMapTag.iter ⟨fun _ => 0, 0⟩)
      (StivaleModuleTag.iter ⟨fun _ => 0, 0⟩)).2.2 (by decide)⟩

/-- Claim C7: each trailing-array slice view has length exactly the tag's
count field (entries_len, module_len, cpu_count), and for every index below
the count the iterator's i-th element equals the slice's i-th element
(iteration is in ascending index order). -/
theorem claim_C7_slice_length_iter_agree (t : StivaleMemoryMapTag)
    (tm : StivaleModuleTag) (ts : StivaleSmpTag) :
    t.as_slice.length = t.entries_len ∧
    tm.as_slice.length = tm.module_len ∧
    ts.as_slice.length = ts.cpu_count ∧
    (∀ i, i < t.entries_len → t.iter.collect[i]? = t.as_slice[i]?) ∧
    (∀ i, i < tm.module_len → tm.iter.collect[i]? = tm.as_slice[i]?) := by
  refine ⟨memoryMap_length_as_slice t,
    module_length_as_slice tm, smp_length_as_slice ts,
    fun i _ => ?_, fun i _ => ?_⟩
  · rw [memoryMap_collect_iter]
  · rw [module_collect_iter]

/-- Memory holding a memory-map tag at address 0 with three entries whose
base fields are 1, 2 and 3. -/
def threeEntryMapMem : Mem := fun x =>
  if x = 16 then 3
  else if x = 24 then 1 else if x = 48 then 2 else if x = 72 then 3 else 0

/-- Memory holding a module tag at address 0 with one module. -/
def oneModuleMem : Mem := fun x => if x = 16 then 1 else 0

/-- Witness for C7: on a 3-entry memory map the iterator's element 2 equals
slice element 2, and on a 1-module tag the iterator's element 0 equals slice
element 0. -/
theorem claim_C7_slice_length_iter_agree_witness :
    (⟨threeEntryMapMem, 0⟩ : StivaleMemoryMapTag).iter.collect[2]? =
      (⟨threeEntryMapMem, 0⟩ : StivaleMemoryMapTag).as_slice[2]? ∧
    (⟨oneModuleMem, 0⟩ : StivaleModuleTag).iter.collect[0]? =
      (⟨oneModuleMem, 0⟩ : StivaleModuleTag).as_slice[0]? :=
  ⟨(claim_C7_slice_length_iter_agree ⟨threeEntryMapMem, 0⟩ ⟨oneModuleMem, 0⟩
      ⟨fun _ => 0, 0⟩).2.2.2.1 2 (by decide),
   (claim_C7_slice_length_iter_agree ⟨threeEntryMapMem, 0⟩ ⟨oneModuleMem, 0⟩
      ⟨fun _ => 0, 0⟩).2.2.2.2 0 (by decide)⟩

/-- Claim C10: `derive(Clone)` copies the iterator field-wise, so a clone has
the same tag reference and the same cursor, produces exactly the remaining
elements the original would produce at the moment of cloning, and its next
step agrees with the original's; in this explicit-state embedding advancing
either value afterwards cannot affect the other, since `next` consumes and
returns only its own iterator value. -/
theorem claim_C10_iter_clone (it : StivaleMemoryMapIter)
    (itm : StivaleModuleIter) :
    (it.clone = it ∧ it.clone.collect = it.collect ∧
      it.clone.next = it.next) ∧
    (itm.clone = itm ∧ itm.clone.collect = itm.collect ∧
      itm.clone.next = itm.next) :=
  ⟨⟨rfl, rfl, rfl⟩, ⟨rfl, rfl, rfl⟩⟩

/-- Helper for C1: a walk that never meets the target identifier along the
chain reaches the sentinel and reports the absent result. -/
theorem findTag_not_found (m : Mem) (target : Nat) :
    ∀ (addrs : List Nat) (root : Nat), isChain m root addrs = true →
      (∀ a ∈ addrs, (readStivaleTagHeader m a).identifier ≠ target) →
      findTag m target addrs.length root = none := by
  intro addrs
  induction addrs with
  | nil => intro root _ _; rfl
  | cons a rest ih =>
    intro root hc hall
    simp only [isChain, Bool.and_eq_true, beq_iff_eq, Bool.not_eq_true',
      beq_eq_false_iff_ne, ne_eq] at hc
    obtain ⟨⟨hroot, hne⟩, hrest⟩ := hc
    subst hroot
    show findTag m target (rest.length + 1) root = none
    rw [findTag, if_neg hne, if_neg (hall root (List.mem_cons_self root rest))]
    exact ih _ hrest (fun b hb => hall b (List.mem_cons_of_mem root hb))

/-- Helper for C1: if every tag before `a` on the chain misses the target and
`a` matches it, the walk stops at `a` and returns it. -/
theorem findTag_found (m : Mem) (target : Nat) :
    ∀ (pre : List Nat) (root a : Nat) (post : List Nat),
      isChain m root (pre ++ a :: post) = true →
      (∀ b ∈ pre, (readStivaleTagHeader m b).identifier ≠ target) →
      (readStivaleTagHeader m a).identifier = target →
      findTag m target (pre ++ a :: post).length root = some a := by
  intro pre
  induction pre with
  | nil =>
    intro root a post hc _ hid
    simp only [List.nil_append, isChain, Bool.and_eq_true, beq_iff_eq,
      Bool.not_eq_true', beq_eq_false_iff_ne, ne_eq] at hc
    obtain ⟨⟨hroot, hne⟩, _⟩ := hc
    subst hroot
    show findTag m target (post.length + 1) root = some root
    rw [findTag, if_neg hne, if_pos hid]
  | cons b pre ih =>
    intro root a post hc hpre hid
    simp only [List.cons_append, isChain, Bool.and_eq_true, beq_iff_eq,
      Bool.not_eq_true', beq_eq_false_iff_ne, ne_eq] at hc
    obtain ⟨⟨hroot, hne⟩, hrest⟩ := hc
    subst hroot
    show findTag m target ((pre ++ a :: post).length + 1) root = some a
    rw [findTag, if_neg hne, if_neg (hpre root (List.mem_cons_self root pre))]
    exact ih _ a post hrest
      (fun c hc2 => hpre c (List.mem_cons_of_mem root hc2)) hid

/-- Helper for C1: whatever the walk returns decodes to a tag whose
identifier field — read back from the backing bytes — equals the target. -/
theorem findTag_some_ident (m : Mem) (target : Nat) :
    ∀ (fuel root a : Nat), findTag m target fuel root = some a →
      (readStivaleTagHeader m a).identifier = target := by
  intro fuel
  induction fuel with
  | zero => intro root a h; exact absurd h (by simp [findTag])
  | succ k ih =>
    intro root a h
    rw [findTag] at h
    by_cases h0 : root = 0
    · rw [if_pos h0] at h; exact absurd h (by simp)
    · rw [if_neg h0] at h
      by_cases hid : (readStivaleTagHeader m root).identifier = target
      · rw [if_pos hid] at h
        have : root = a := by simpa using h
        subst this; exact hid
      · rw [if_neg hid] at h
        exact ih _ _ h

/-- Claim C1 (the Chain Walker is modelled from the spec, see `findTag`):
given a root address and a target identifier, the walk over a well-formed
chain returns the absent result when no tag on the chain carries the target
identifier (a normal outcome of the total function, never an abort), returns
the first tag whose identifier matches, and any returned view's identifier
field — decoded back from the backing buffer — equals the target. -/
theorem claim_C1_find_tag (m : Mem) (target root : Nat) (addrs : List Nat)
    (hc : isChain m root addrs = true) :
    ((∀ a ∈ addrs, (readStivaleTagHeader m a).identifier ≠ target) →
      findTag m target addrs.length root = none) ∧
    (∀ pre a post, addrs = pre ++ a :: post →
      (∀ b ∈ pre, (readStivaleTagHeader m b).identifier ≠ target) →
      (readStivaleTagHeader m a).identifier = target →
      findTag m target addrs.length root = some a) ∧
    (∀ fuel r a, findTag m target fuel r = some a →
      (readStivaleTagHeader m a).identifier = target) :=
  ⟨findTag_not_found m target addrs root hc,
   fun pre a post heq hpre hid => by
     subst heq; exact findTag_found m target pre root a post hc hpre hid,
   fun fuel r a h => findTag_some_ident m target fuel r a h⟩

/-- Memory holding a two-tag chain: the tag at address 16 has identifier 7
and next = 48; the tag at address 48 has identifier 9 and next = 0 (the
sentinel). -/
def chainMem : Mem := fun x =>
  if x = 16 then 7 else if x = 24 then 48 else if x = 48 then 9 else 0

/-- Witness for C1 on the concrete two-tag chain rooted at 16: looking for
identifier 5 reports absent; looking for identifier 9 returns the second
tag's address 48. -/
theorem claim_C1_find_tag_witness :
    findTag chainMem 5 2 16 = none ∧ findTag chainMem 9 2 16 = some 48 :=
  ⟨(claim_C1_find_tag chainMem 5 16 [16, 48] (by decide)).1 (by decide),
   (claim_C1_find_tag chainMem 9 16 [16, 48] (by decide)).2.1 [16] 48 []
     rfl (by decide) (by decide)⟩

end Stivale2
